import Mathlib

/-!
Verification of the worker thread pool in
`src/Chapter-20/hello_webserver/src/lib.rs` (crate `hello_webserver`).

The Rust source is shallowly embedded below.  Jobs are opaque one-shot
callables; the pool never inspects them, so a Job is modelled by a natural
number identifying it (`Job := Nat`).  The dispatch channel
(`std::sync::mpsc::channel`) is a FIFO queue of `Message`s; thread handles
(`std::thread::JoinHandle<()>`) are modelled by the id of the worker whose
thread they refer to.  A Rust `panic!` (from `Option::unwrap` /
`Result::unwrap` / `assert!`) is modelled by the `Panic` error of an
`Except Panic _` result, and fallible operations return their `Result`
explicitly.
-/

namespace HelloWebserver

/-- Rust: `type Job = Box<dyn FnBox + Send + 'static>;`.
The pool treats a job as an opaque one-shot callable; we identify each job
by a natural number. -/
def Job : Type := Nat

instance : DecidableEq Job := instDecidableEqNat

instance : Repr Job := instReprNat

instance (n : Nat) : OfNat Job n := ⟨n⟩

/-- Rust: `enum Message { NewJob(Job), Terminate }`. -/
inductive Message : Type where
  | NewJob (job : Job)
  | Terminate
deriving DecidableEq, Repr

/-- A `panic!` (the effect of `unwrap` on a `None`/`Err`, or of a failed
`assert!`). -/
inductive Panic : Type where
  | panic
deriving DecidableEq, Repr

/-- Rust: `std::sync::mpsc::SendError`. -/
inductive SendError : Type where
  | sendError
deriving DecidableEq, Repr

/-- Rust: `std::sync::mpsc::RecvError`. -/
inductive RecvError : Type where
  | recvError
deriving DecidableEq, Repr

/-- The dispatch channel: a FIFO queue of messages, plus the liveness of
each side.  `receiverAlive` is false once the receiving side has been
dropped (all workers gone); `sendersAlive` is false once every sending
handle has been dropped. -/
structure Channel : Type where
  queue : List Message
  receiverAlive : Bool
  sendersAlive : Bool
deriving DecidableEq, Repr

/-- Rust: `tx.send(msg)` — `send(Message) -> Result<(), SendError>`;
fails exactly when the receiving side has been dropped, otherwise appends
the message to the FIFO queue (unbounded, never blocks). -/
def Channel.send (ch : Channel) (m : Message) : Except SendError Channel :=
  if ch.receiverAlive then
    .ok { ch with queue := ch.queue ++ [m] }
  else
    .error .sendError

/-- Rust: `rx.recv()` — `recv() -> Result<Message, RecvError>` on the shared
receiving end.  Returns the head of the FIFO queue when one is available;
fails (RecvError) when the queue is empty and all senders are gone.  The
remaining case (empty queue, senders alive) blocks, which a single call
cannot observe; we model the observable outcomes of a call that returns. -/
inductive RecvOutcome : Type where
  | msg (m : Message) (rest : List Message)
  | err
  | blocked
deriving DecidableEq, Repr

def Channel.recv (ch : Channel) : RecvOutcome :=
  match ch.queue with
  | m :: rest => .msg m rest
  | [] => if ch.sendersAlive then .blocked else .err

/-- Worker states for the receive loop.  `running`: inside the loop;
`stopped`: left the loop via `break` (the `Terminate` arm); `panicked`:
the thread died from a `panic!` (an `unwrap` on an `Err`). -/
inductive WorkerState : Type where
  | running
  | stopped
  | panicked
deriving DecidableEq, Repr

/-- One iteration of the worker loop body acting on the outcome of
`rx.lock().unwrap().recv()`, translated from `Worker::new`:

```rust
let message = rx.lock().unwrap().recv().unwrap();
match message {
    Message::NewJob(job) => { job.call_box(); },
    Message::Terminate => { break; },
}
```

Input `none` stands for `recv()` returning `Err(RecvError)` (channel
closed and empty): the `.unwrap()` then panics, killing the thread.
The result is the worker's state after the iteration together with the
list of jobs executed during it. -/
def workerHandleRecv : Option Message → WorkerState × List Job
  | none => (.panicked, [])
  | some (.NewJob job) => (.running, [job])
  | some .Terminate => (.stopped, [])

/-- Events inside one worker-loop iteration, used to express where the
mutex on the shared receiver is held.  In the statement
`let message = rx.lock().unwrap().recv().unwrap();` the `MutexGuard`
returned by `lock()` is a temporary that is dropped at the end of that
statement, so the lock is acquired, one `recv` is performed, and the lock
is released — all before the `match` on the message runs. -/
inductive LoopEvent : Type where
  | lockAcquire
  | recvOp
  | lockRelease
  | execJob (job : Job)
  | breakLoop
deriving DecidableEq, Repr

/-- What the `match` arm of the loop body does, per message (outside the
lock): a `NewJob` arm calls `job.call_box()`, the `Terminate` arm breaks. -/
def matchArmTrace : Message → List LoopEvent
  | .NewJob job => [.execJob job]
  | .Terminate => [.breakLoop]

/-- The full event trace of one worker-loop iteration that received
message `m`: lock, one dequeue, unlock (end of the `let` statement), then
the `match` arm. -/
def iterationTrace (m : Message) : List LoopEvent :=
  [.lockAcquire, .recvOp, .lockRelease] ++ matchArmTrace m

/-- Rust: `struct Worker { id: usize, thread: Option<JoinHandle<()>> }`.
`rxRef` records which receiver the worker's spawned closure captured a
reference to (the `Arc<Mutex<Receiver>>` clone passed to `Worker::new`). -/
structure Worker : Type where
  id : Nat
  thread : Option Nat
  rxRef : Nat
deriving DecidableEq, Repr

/-- Rust: `Worker::new(id, rx)` — spawns the receive-loop thread and stores
its handle, so `thread` is `Some` immediately after construction. -/
def Worker.new (id : Nat) (rx : Nat) : Worker :=
  { id := id, thread := some id, rxRef := rx }

/-- Rust: `pub struct ThreadPool { workers: Vec<Worker>, tx: Sender<Message> }`.
`rxHandle` names the single shared receiver created by `mpsc::channel()`
in `ThreadPool::new` (wrapped in `Arc<Mutex<_>>`). -/
structure ThreadPool : Type where
  workers : List Worker
  rxHandle : Nat
deriving DecidableEq, Repr

/-- Rust: `ThreadPool::new(size)`.  `assert!(size > 0)` panics on size 0;
otherwise one channel is created, the receiver is shared, and `size`
workers with ids `0..size` are spawned in order, each given a clone of the
shared receiver. -/
def ThreadPool.new (size : Nat) : Except Panic ThreadPool :=
  if size > 0 then
    let rx : Nat := 0
    .ok { workers := (List.range size).map (fun id => Worker.new id rx),
          rxHandle := rx }
  else
    .error .panic

/-- Rust: `ThreadPool::execute(f)` — wraps the job and sends
`Message::NewJob(job)`, calling `.unwrap()` on the send result: a send
failure becomes a panic, never a silent drop. -/
def ThreadPool.execute (ch : Channel) (job : Job) : Except Panic Channel :=
  match ch.send (.NewJob job) with
  | .ok ch2 => .ok ch2
  | .error _ => .error .panic

/-- Teardown events of `Drop for ThreadPool`: a `Terminate` send, or a
join of the thread of the worker with the given id. -/
inductive TeardownEvent : Type where
  | sendTerminate
  | join (id : Nat)
deriving DecidableEq, Repr

/-- The join phase of `Drop for ThreadPool`, translated from

```rust
for worker in &mut self.workers {
    if let Some(thread) = worker.thread.take() {
        thread.join().unwrap();
    }
}
```

`Option::take` replaces the worker's `thread` field by `None`; the join
happens only when the taken value was `Some`.  Returns the updated worker
list and the join events in order. -/
def joinPhase : List Worker → List Worker × List TeardownEvent
  | [] => ([], [])
  | w :: ws =>
    let rest := joinPhase ws
    match w.thread with
    | some h => ({ w with thread := none } :: rest.1, .join h :: rest.2)
    | none => (w :: rest.1, rest.2)

/-- Teardown, `impl Drop for ThreadPool`: first loop sends one `Terminate` per worker
(`for _ in &mut self.workers { self.tx.send(Message::Terminate).unwrap(); }`),
then the second loop joins each worker in vector order.  Returns the pool
after teardown and the ordered event trace. -/
def ThreadPool.drop (p : ThreadPool) : ThreadPool × List TeardownEvent :=
  let sends := p.workers.map (fun _ => TeardownEvent.sendTerminate)
  let joined := joinPhase p.workers
  ({ p with workers := joined.1 }, sends ++ joined.2)

/-!
Small-step system semantics for the running pool, used for the
concurrency claims.  Each worker thread repeatedly (a) locks the shared
receiver and dequeues one message — the mutex makes this head-removal
atomic, so no two workers can observe the same message — and then
(b) executes the dequeued job outside the lock (see `iterationTrace`).
We therefore split a worker-loop iteration into two separate steps:
an atomic dequeue, and a separate execution step, so that other workers
may dequeue while a job is still being executed.
-/

/-- The observable record of one worker thread: its id, its loop state,
the job it has dequeued but not yet finished executing (if any), and the
jobs it has finished executing, in order. -/
structure WorkerProc : Type where
  wid : Nat
  state : WorkerState
  pending : Option Job
  executed : List Job
deriving DecidableEq, Repr

/-- Jobs a worker currently holds: the pending one plus the executed ones. -/
def WorkerProc.held (w : WorkerProc) : List Job :=
  w.pending.toList ++ w.executed

/-- A state of the whole system: the channel's FIFO queue and the worker
threads. -/
structure SysState : Type where
  queue : List Message
  procs : List WorkerProc
deriving DecidableEq, Repr

/-- Jobs still in the queue, in FIFO order (`Terminate` carries no job). -/
def queueJobs : List Message → List Job
  | [] => []
  | .NewJob j :: rest => j :: queueJobs rest
  | .Terminate :: rest => queueJobs rest

/-- Concatenation of all jobs currently held (pending or executed) by the
workers. -/
def allHeld (procs : List WorkerProc) : List Job :=
  (procs.map WorkerProc.held).flatten

/-- Concatenation of all jobs already executed by the workers. -/
def allExecuted (procs : List WorkerProc) : List Job :=
  (procs.map WorkerProc.executed).flatten

/-- One atomic step of the running system, from `Worker::new`'s loop:

* `dequeueJob`: a running worker with no pending job locks the receiver
  and `recv`s the head of the queue, a `NewJob`; the lock guard is dropped
  at the end of the `let` statement, before the job runs.
* `dequeueTerminate`: as above but the head is `Terminate`; the worker
  `break`s out of its loop.
* `execJob`: a worker executes its dequeued job (outside the lock). -/
inductive Step : SysState → SysState → Prop where
  | dequeueJob (s : SysState) (i : Nat) (w : WorkerProc) (job : Job)
      (rest : List Message)
      (hw : s.procs.get? i = some w)
      (hrun : w.state = .running)
      (hidle : w.pending = none)
      (hq : s.queue = .NewJob job :: rest) :
      Step s { queue := rest,
               procs := s.procs.set i { w with pending := some job } }
  | dequeueTerminate (s : SysState) (i : Nat) (w : WorkerProc)
      (rest : List Message)
      (hw : s.procs.get? i = some w)
      (hrun : w.state = .running)
      (hidle : w.pending = none)
      (hq : s.queue = .Terminate :: rest) :
      Step s { queue := rest,
               procs := s.procs.set i { w with state := .stopped } }
  | execJob (s : SysState) (i : Nat) (w : WorkerProc) (job : Job)
      (hw : s.procs.get? i = some w)
      (hpend : w.pending = some job) :
      Step s { s with
               procs := s.procs.set i
                 { w with pending := none, executed := w.executed ++ [job] } }

/-- Reflexive-transitive closure of `Step`. -/
def Reachable : SysState → SysState → Prop :=
  Relation.ReflTransGen Step

/-- Worker threads as they are right after `ThreadPool::new(n)`: ids
`0..n`, all running, none holding a job. -/
def initProcs (n : Nat) : List WorkerProc :=
  (List.range n).map (fun i => { wid := i, state := .running,
                                 pending := none, executed := [] })

/-- System state right after `n` jobs have been submitted through
`execute` to a fresh pool of `nw` workers and before any worker ran:
the FIFO queue holds the jobs in submission order. -/
def initState (jobs : List Job) (nw : Nat) : SysState :=
  { queue := jobs.map .NewJob, procs := initProcs nw }

/-- System state at the start of teardown: the jobs submitted before
teardown sit first in the FIFO queue, followed by the `k` `Terminate`
messages enqueued by `Drop`. -/
def teardownState (jobs : List Job) (nw k : Nat) : SysState :=
  { queue := jobs.map .NewJob ++ List.replicate k .Terminate,
    procs := initProcs nw }

/-! ### Helper lemmas -/

lemma joinPhase_map_new (rx : Nat) (ids : List Nat) :
    joinPhase (ids.map (fun id => Worker.new id rx)) =
      (ids.map (fun id => { id := id, thread := none, rxRef := rx }),
       ids.map TeardownEvent.join) := by
  induction ids with
  | nil => rfl
  | cons i is ih =>
    simp only [Worker.new] at ih ⊢
    simp [joinPhase, ih]

lemma joinPhase_of_thread_none (ws : List Worker)
    (h : ∀ w ∈ ws, w.thread = none) : joinPhase ws = (ws, []) := by
  induction ws with
  | nil => rfl
  | cons w ws ih =>
    have hw : w.thread = none := h w (by simp)
    have ihw := ih (fun x hx => h x (by simp [hx]))
    simp [joinPhase, hw, ihw]

lemma queueJobs_cons_newJob (j : Job) (rest : List Message) :
    queueJobs (.NewJob j :: rest) = j :: queueJobs rest := rfl

lemma queueJobs_cons_terminate (rest : List Message) :
    queueJobs (.Terminate :: rest) = queueJobs rest := rfl

lemma queueJobs_append (a b : List Message) :
    queueJobs (a ++ b) = queueJobs a ++ queueJobs b := by
  induction a with
  | nil => rfl
  | cons m rest ih => cases m <;> simp [queueJobs, ih]

lemma queueJobs_map_newJob (jobs : List Job) :
    queueJobs (jobs.map .NewJob) = jobs := by
  induction jobs with
  | nil => rfl
  | cons j rest ih => simp [queueJobs, ih]

lemma queueJobs_replicate_terminate (k : Nat) :
    queueJobs (List.replicate k .Terminate) = [] := by
  induction k with
  | zero => rfl
  | succ k ih => simp [List.replicate_succ, queueJobs, ih]

lemma queueJobs_of_all_terminate (q : List Message)
    (h : ∀ m ∈ q, m = .Terminate) : queueJobs q = [] := by
  induction q with
  | nil => rfl
  | cons m rest ih =>
    have hm : m = .Terminate := h m (by simp)
    subst hm
    exact ih (fun m hm => h m (by simp [hm]))

lemma allHeld_cons (w : WorkerProc) (ws : List WorkerProc) :
    allHeld (w :: ws) = w.held ++ allHeld ws := rfl

lemma allExecuted_cons (w : WorkerProc) (ws : List WorkerProc) :
    allExecuted (w :: ws) = w.executed ++ allExecuted ws := rfl

lemma allHeld_set_count (j : Job) :
    ∀ (procs : List WorkerProc) (i : Nat) (w w' : WorkerProc),
      procs.get? i = some w →
      (allHeld (procs.set i w')).count j + (w.held).count j
        = (allHeld procs).count j + (w'.held).count j := by
  intro procs
  induction procs with
  | nil => intro i w w' h; simp at h
  | cons p ps ih =>
    intro i w w' h
    cases i with
    | zero =>
      simp only [List.get?] at h
      cases h
      simp [allHeld_cons, List.count_append]
      omega
    | succ i =>
      simp only [List.get?] at h
      have := ih i w w' h
      simp [allHeld_cons, List.count_append]
      omega

lemma count_allExecuted_le_allHeld (j : Job) (procs : List WorkerProc) :
    (allExecuted procs).count j ≤ (allHeld procs).count j := by
  induction procs with
  | nil => exact Nat.le_refl 0
  | cons p ps ih =>
    simp only [allHeld_cons, allExecuted_cons, List.count_append,
               WorkerProc.held]
    omega

lemma allHeld_of_pending_none_executed_nil (procs : List WorkerProc)
    (h : ∀ w ∈ procs, w.pending = none ∧ w.executed = []) :
    allHeld procs = [] := by
  induction procs with
  | nil => rfl
  | cons p ps ih =>
    obtain ⟨h1, h2⟩ := h p (by simp)
    simp [allHeld_cons, WorkerProc.held, h1, h2,
          ih (fun w hw => h w (by simp [hw]))]

lemma allHeld_of_initProcs (n : Nat) : allHeld (initProcs n) = [] := by
  apply allHeld_of_pending_none_executed_nil
  intro w hw
  rcases List.mem_map.mp hw with ⟨i, _, rfl⟩
  exact ⟨rfl, rfl⟩

/-- Total number of occurrences of job `j` anywhere in the system: still
queued, dequeued-but-pending, or executed. -/
def jobCount (j : Job) (s : SysState) : Nat :=
  (queueJobs s.queue).count j + (allHeld s.procs).count j

lemma step_jobCount (j : Job) {s s' : SysState} (h : Step s s') :
    jobCount j s' = jobCount j s := by
  cases h with
  | dequeueJob i w job rest hw hrun hidle hq =>
    have hset := allHeld_set_count j s.procs i w
      { w with pending := some job } hw
    by_cases hj : j = job
    · subst hj
      simp [WorkerProc.held, hidle, List.count_cons] at hset
      simp only [jobCount, hq, queueJobs_cons_newJob]
      simp [List.count_cons]
      omega
    · simp [WorkerProc.held, hidle, List.count_cons, hj] at hset
      simp only [jobCount, hq, queueJobs_cons_newJob]
      simp [List.count_cons, hj]
      omega
  | dequeueTerminate i w rest hw hrun hidle hq =>
    have hset := allHeld_set_count j s.procs i w
      { w with state := .stopped } hw
    simp only [WorkerProc.held] at hset
    simp only [jobCount, hq, queueJobs_cons_terminate]
    omega
  | execJob i w job hw hpend =>
    have hset := allHeld_set_count j s.procs i w
      { w with pending := none, executed := w.executed ++ [job] } hw
    by_cases hj : j = job
    · subst hj
      simp [WorkerProc.held, hpend, List.count_cons, List.count_append]
        at hset
      simp only [jobCount]
      omega
    · simp [WorkerProc.held, hpend, List.count_cons, List.count_append, hj]
        at hset
      simp only [jobCount]
      omega

lemma reachable_jobCount (j : Job) {s s' : SysState}
    (h : Reachable s s') : jobCount j s' = jobCount j s := by
  induction h with
  | refl => rfl
  | tail _ hstep ih => rw [step_jobCount j hstep, ih]

lemma schedule_all :
    ∀ (jobs : List Job) (wid : Nat) (ex : List Job) (ws : List WorkerProc),
      Reachable
        { queue := jobs.map .NewJob,
          procs := { wid := wid, state := .running, pending := none,
                     executed := ex } :: ws }
        { queue := [],
          procs := { wid := wid, state := .running, pending := none,
                     executed := ex ++ jobs } :: ws } := by
  intro jobs
  induction jobs with
  | nil =>
    intro wid ex ws
    simp only [List.map_nil, List.append_nil]
    exact Relation.ReflTransGen.refl
  | cons jb jobs ih =>
    intro wid ex ws
    have h1 : Step
        { queue := (jb :: jobs).map .NewJob,
          procs := { wid := wid, state := .running, pending := none,
                     executed := ex } :: ws }
        { queue := jobs.map .NewJob,
          procs := { wid := wid, state := .running, pending := some jb,
                     executed := ex } :: ws } :=
      Step.dequeueJob _ 0
        { wid := wid, state := .running, pending := none, executed := ex }
        jb (jobs.map .NewJob) rfl rfl rfl rfl
    have h2 : Step
        { queue := jobs.map .NewJob,
          procs := { wid := wid, state := .running, pending := some jb,
                     executed := ex } :: ws }
        { queue := jobs.map .NewJob,
          procs := { wid := wid, state := .running, pending := none,
                     executed := ex ++ [jb] } :: ws } :=
      Step.execJob _ 0
        { wid := wid, state := .running, pending := some jb, executed := ex }
        jb rfl rfl
    have h3 := ih wid (ex ++ [jb]) ws
    rw [List.append_assoc] at h3
    simp only [List.singleton_append] at h3
    exact Relation.ReflTransGen.head h1 (Relation.ReflTransGen.head h2 h3)

lemma allExecuted_of_executed_nil (procs : List WorkerProc)
    (h : ∀ w ∈ procs, w.executed = []) : allExecuted procs = [] := by
  induction procs with
  | nil => rfl
  | cons p ps ih =>
    simp [allExecuted_cons, h p (by simp),
          ih (fun w hw => h w (by simp [hw]))]

lemma terminate_suffix (jobs : List Job) (k : Nat) (rest : List Message)
    (h : (Message.Terminate :: rest)
           <:+ (jobs.map .NewJob ++ List.replicate k .Terminate)) :
    (Message.Terminate :: rest) <:+ List.replicate k .Terminate := by
  obtain ⟨t, ht⟩ := h
  by_cases hlen : jobs.length ≤ t.length
  · refine ⟨t.drop jobs.length, ?_⟩
    have hd := congrArg (List.drop jobs.length) ht
    rw [List.drop_append_of_le_length hlen, List.drop_left' (by simp)] at hd
    exact hd
  · exfalso
    push_neg at hlen
    have hget : (t ++ Message.Terminate :: rest).get? t.length
        = some Message.Terminate := by
      rw [List.get?_append_right (Nat.le_refl _)]
      simp
    rw [ht, List.get?_append (by simpa using hlen), List.get?_map] at hget
    cases hj : jobs.get? t.length with
    | none => rw [hj] at hget; simp at hget
    | some jb => rw [hj] at hget; simp at hget

/-- Invariant through teardown: the queue is always a suffix of the
initial queue (workers only pop its head), and once any worker has
consumed a `Terminate` (reaching `stopped`), only `Terminate` messages can
remain queued — FIFO delivery dequeues every earlier `NewJob` first. -/
def teardownInv (jobs : List Job) (k : Nat) (s : SysState) : Prop :=
  s.queue <:+ (jobs.map .NewJob ++ List.replicate k .Terminate)
    ∧ ((∃ w ∈ s.procs, w.state = .stopped) →
        s.queue <:+ List.replicate k .Terminate)

lemma step_teardownInv (jobs : List Job) (k : Nat) {s s' : SysState}
    (hstep : Step s s') (hinv : teardownInv jobs k s) :
    teardownInv jobs k s' := by
  obtain ⟨hsuf, hstop⟩ := hinv
  cases hstep with
  | dequeueJob i w job rest hw hrun hidle hq =>
    rw [hq] at hsuf
    constructor
    · exact (List.suffix_cons _ _).trans hsuf
    · intro hex
      have hex' : ∃ w' ∈ s.procs, w'.state = .stopped := by
        obtain ⟨w', hw', hst⟩ := hex
        rcases List.mem_or_eq_of_mem_set hw' with hmem | heq
        · exact ⟨w', hmem, hst⟩
        · exfalso
          subst heq
          rw [show ({ w with pending := some job } : WorkerProc).state
                = w.state from rfl, hrun] at hst
          exact absurd hst (by decide)
      have hterm := hstop hex'
      rw [hq] at hterm
      exact (List.suffix_cons _ _).trans hterm
  | dequeueTerminate i w rest hw hrun hidle hq =>
    rw [hq] at hsuf
    have hterm := terminate_suffix jobs k rest hsuf
    constructor
    · exact (List.suffix_cons _ _).trans hsuf
    · intro _
      exact (List.suffix_cons _ _).trans hterm
  | execJob i w job hw hpend =>
    constructor
    · exact hsuf
    · intro hex
      apply hstop
      obtain ⟨w', hw', hst⟩ := hex
      rcases List.mem_or_eq_of_mem_set hw' with hmem | heq
      · exact ⟨w', hmem, hst⟩
      · subst heq
        exact ⟨w, List.get?_mem hw, hst⟩

lemma reachable_teardownInv (jobs : List Job) (k : Nat) {s s' : SysState}
    (h : Reachable s s') (hinv : teardownInv jobs k s) :
    teardownInv jobs k s' := by
  induction h with
  | refl => exact hinv
  | tail _ hstep ih => exact step_teardownInv jobs k hstep ih

lemma teardownInv_init (jobs : List Job) (nw k : Nat) :
    teardownInv jobs k (teardownState jobs nw k) := by
  constructor
  · exact List.suffix_refl _
  · intro hex
    exfalso
    obtain ⟨w, hw, hst⟩ := hex
    simp only [teardownState, initProcs] at hw
    rcases List.mem_map.mp hw with ⟨i, _, rfl⟩
    have hcontra : WorkerState.running = WorkerState.stopped := hst
    exact absurd hcontra (by decide)

/-! ### Claim theorems -/

/-- C1.  `ThreadPool::execute` ends in `self.tx.send(...).unwrap()`: when
the channel's receiving side has been torn down, the `SendError` is not
swallowed — the `unwrap` raises it as a panic, so the failure is always
surfaced to the caller and never silently dropped. -/
theorem execute_send_failure_surfaced
    (q : List Message) (sAlive : Bool) (j : Job) :
    ThreadPool.execute
        { queue := q, receiverAlive := false, sendersAlive := sAlive } j
      = .error .panic := by
  simp [ThreadPool.execute, Channel.send]

/-- C2 (counterexample).  The claim says a `recv` failure sends the worker
to the graceful `Stopped` state; in the code `recv().unwrap()` panics
instead, so the resulting worker state is `panicked`, not `stopped`. -/
theorem recv_failure_not_stopped_counterexample :
    ¬ ((workerHandleRecv none).1 = WorkerState.stopped) := by
  decide

/-- C2 (amended).  When `recv` on the shared receiving end fails (channel
closed and empty), the worker does exit its receive loop without executing
any job — but it does so because the `.unwrap()` on the `RecvError`
panics and kills the thread, not by a graceful transition to `Stopped`. -/
theorem recv_failure_panics_and_exits_loop :
    workerHandleRecv none = (WorkerState.panicked, [])
      ∧ WorkerState.panicked ≠ WorkerState.running
      ∧ WorkerState.panicked ≠ WorkerState.stopped := by
  refine ⟨rfl, by decide, by decide⟩

/-- C4.  `ThreadPool::new(0)` hits `assert!(size > 0)` and panics; it
never returns a constructed pool. -/
theorem new_zero_panics :
    ThreadPool.new 0 = .error .panic
      ∧ ∀ p : ThreadPool, ThreadPool.new 0 ≠ .ok p := by
  exact ⟨rfl, fun p h => by simp [ThreadPool.new] at h⟩

/-- C5.  For every `size > 0`, `ThreadPool::new(size)` returns a pool with
exactly `size` workers, whose ids are `0, 1, …, size-1` in creation order,
each holding a reference to the pool's single shared receiver. -/
theorem new_spawns_size_workers (size : Nat) (h : 0 < size) :
    ∃ p : ThreadPool, ThreadPool.new size = .ok p
      ∧ p.workers.length = size
      ∧ p.workers.map Worker.id = List.range size
      ∧ ∀ w ∈ p.workers, w.rxRef = p.rxHandle := by
  refine ⟨{ workers := (List.range size).map (fun id => Worker.new id 0),
            rxHandle := 0 }, ?_, ?_, ?_, ?_⟩
  · simp [ThreadPool.new, h]
  · simp
  · simp [Worker.new, Function.comp_def]
  · intro w hw
    rcases List.mem_map.mp hw with ⟨i, _, rfl⟩
    rfl

/-- C8.  For any distinct job sequence submitted to a fresh pool: (safety)
in every reachable system state each submitted job occurs exactly once in
total across the queue and the workers' pending/executed lists — so no job
is lost, none is duplicated, no two workers ever hold the same job (the
atomic head dequeue models the mutex-guarded `recv`), and each executed
list counts it at most once; (liveness) some execution dispatches every
job, ending with each job executed exactly once. -/
theorem jobs_executed_exactly_once (jobs : List Job) (nw : Nat)
    (hnd : jobs.Nodup) (hnw : 0 < nw) :
    (∀ s, Reachable (initState jobs nw) s → ∀ j ∈ jobs,
        (queueJobs s.queue).count j + (allHeld s.procs).count j = 1
          ∧ (allExecuted s.procs).count j ≤ 1)
      ∧ (∃ s, Reachable (initState jobs nw) s ∧ s.queue = []
          ∧ ∀ j ∈ jobs, (allExecuted s.procs).count j = 1) := by
  have hinit : ∀ j ∈ jobs, jobCount j (initState jobs nw) = 1 := by
    intro j hj
    simp only [jobCount, initState, queueJobs_map_newJob,
               allHeld_of_initProcs, List.count_nil, Nat.add_zero]
    exact List.count_eq_one_of_mem hnd hj
  constructor
  · intro s hs j hj
    have hcount : jobCount j s = 1 := by
      rw [reachable_jobCount j hs]; exact hinit j hj
    have h1 := count_allExecuted_le_allHeld j s.procs
    simp only [jobCount] at hcount
    exact ⟨hcount, by omega⟩
  · obtain ⟨m, rfl⟩ : ∃ m, nw = m + 1 :=
      ⟨nw - 1, (Nat.succ_pred_eq_of_pos hnw).symm⟩
    have hsplit : initProcs (m + 1)
        = ({ wid := 0, state := .running, pending := none,
             executed := [] } : WorkerProc)
            :: (List.range m).map (fun i =>
                 ({ wid := i + 1, state := .running, pending := none,
                    executed := [] } : WorkerProc)) := by
      simp [initProcs, List.range_succ_eq_map, Function.comp_def]
    refine ⟨{ queue := [],
              procs := { wid := 0, state := .running, pending := none,
                         executed := jobs }
                :: (List.range m).map (fun i =>
                     ({ wid := i + 1, state := .running, pending := none,
                        executed := [] } : WorkerProc)) }, ?_, rfl, ?_⟩
    · have h := schedule_all jobs 0 []
        ((List.range m).map (fun i =>
          ({ wid := i + 1, state := .running, pending := none,
             executed := [] } : WorkerProc)))
      simp only [List.nil_append] at h
      simpa only [initState, hsplit] using h
    · intro j hj
      have htail : allExecuted ((List.range m).map (fun i =>
          ({ wid := i + 1, state := .running, pending := none,
             executed := [] } : WorkerProc))) = [] := by
        apply allExecuted_of_executed_nil
        intro w hw
        rcases List.mem_map.mp hw with ⟨i, _, rfl⟩
        rfl
      simp only [allExecuted_cons, htail, List.append_nil]
      exact List.count_eq_one_of_mem hnd hj

/-- C8 witness. -/
theorem jobs_executed_exactly_once_witness :
    (∀ s, Reachable (initState [0, 1] 2) s → ∀ j ∈ ([0, 1] : List Job),
        (queueJobs s.queue).count j + (allHeld s.procs).count j = 1
          ∧ (allExecuted s.procs).count j ≤ 1)
      ∧ (∃ s, Reachable (initState [0, 1] 2) s ∧ s.queue = []
          ∧ ∀ j ∈ ([0, 1] : List Job),
              (allExecuted s.procs).count j = 1) :=
  jobs_executed_exactly_once [0, 1] 2 (by decide) (by decide)

/-- C5 witness. -/
theorem new_spawns_size_workers_witness :
    ∃ p : ThreadPool, ThreadPool.new 3 = .ok p
      ∧ p.workers.length = 3
      ∧ p.workers.map Worker.id = List.range 3
      ∧ ∀ w ∈ p.workers, w.rxRef = p.rxHandle :=
  new_spawns_size_workers 3 (by decide)

/-- C6.  Per received message: a `NewJob(job)` makes the worker execute
exactly that one job and stay in the loop (`running`); a `Terminate`
executes no work and leaves the loop (`stopped`). -/
theorem worker_message_handling (j : Job) :
    workerHandleRecv (some (.NewJob j)) = (WorkerState.running, [j])
      ∧ workerHandleRecv (some .Terminate) = (WorkerState.stopped, []) :=
  ⟨rfl, rfl⟩

/-- C7.  In each loop iteration the critical section on the shared
receiver is exactly `[lockAcquire, recvOp, lockRelease]` — the lock guards
the single dequeue only — and any job execution event occurs strictly
after the release (at index ≥ 3), so a running job never holds the lock. -/
theorem lock_released_before_job_execution (m : Message) :
    (iterationTrace m).take 3
        = [LoopEvent.lockAcquire, LoopEvent.recvOp, LoopEvent.lockRelease]
      ∧ (∀ j k, (iterationTrace m).get? k = some (.execJob j) → 3 ≤ k)
      ∧ (∀ e ∈ matchArmTrace m,
           e ≠ LoopEvent.lockAcquire ∧ e ≠ LoopEvent.lockRelease
             ∧ e ≠ LoopEvent.recvOp) := by
  cases m with
  | NewJob j =>
    refine ⟨rfl, ?_, ?_⟩
    · intro j' k hk
      match k, hk with
      | 3, _ => exact le_refl 3
    · intro e he
      simp [matchArmTrace] at he
      simp [he]
  | Terminate =>
    refine ⟨rfl, ?_, ?_⟩
    · intro j' k hk
      match k, hk with
      | 3, hk => simp [iterationTrace, matchArmTrace] at hk
    · intro e he
      simp [matchArmTrace] at he
      simp [he]

/-- C7 witness. -/
theorem lock_released_before_job_execution_witness :
    (iterationTrace (.NewJob 5)).take 3
        = [LoopEvent.lockAcquire, LoopEvent.recvOp, LoopEvent.lockRelease]
      ∧ 3 ≤ 3 :=
  ⟨(lock_released_before_job_execution (.NewJob 5)).1,
   (lock_released_before_job_execution (.NewJob 5)).2.1 5 3 (by decide)⟩

/-- C3.  Teardown of a freshly constructed pool of `size` workers produces
the event trace `sendTerminate × size` followed by `join 0, …,
join (size-1)`: exactly one `Terminate` per owned worker, every send
before any join, and the joins in worker-creation order; the trace (and
hence `drop`) is complete only once every worker has been joined. -/
theorem drop_sends_then_joins_in_order (size : Nat) (p : ThreadPool)
    (h : 0 < size) (hp : ThreadPool.new size = .ok p) :
    (p.drop).2
      = List.replicate size TeardownEvent.sendTerminate
          ++ (List.range size).map TeardownEvent.join := by
  simp only [ThreadPool.new, if_pos h] at hp
  cases hp
  simp [ThreadPool.drop, joinPhase_map_new, Function.comp_def,
        List.map_const']

/-- C3 witness. -/
theorem drop_sends_then_joins_in_order_witness :
    (ThreadPool.drop { workers := [Worker.new 0 0, Worker.new 1 0],
                       rxHandle := 0 }).2
      = List.replicate 2 TeardownEvent.sendTerminate
          ++ (List.range 2).map TeardownEvent.join :=
  drop_sends_then_joins_in_order 2
    { workers := [Worker.new 0 0, Worker.new 1 0], rxHandle := 0 }
    (by decide) (by rfl)

/-- C10.  Immediately after construction every worker's `thread` field is
`Some`; `Drop` `take`s each handle out of the `Option` before joining, so
after teardown every worker's `thread` field is `None`, and running the
join phase again performs no join at all — each execution context is
joined at most once. -/
theorem thread_taken_and_joined_once (size : Nat) (p : ThreadPool)
    (h : 0 < size) (hp : ThreadPool.new size = .ok p) :
    (∀ w ∈ p.workers, w.thread.isSome)
      ∧ (∀ w ∈ (p.drop).1.workers, w.thread = none)
      ∧ (joinPhase (p.drop).1.workers).2 = [] := by
  simp only [ThreadPool.new, if_pos h] at hp
  cases hp
  refine ⟨?_, ?_, ?_⟩
  · intro w hw
    rcases List.mem_map.mp hw with ⟨i, _, rfl⟩
    rfl
  · intro w hw
    simp only [ThreadPool.drop, joinPhase_map_new] at hw
    rcases List.mem_map.mp hw with ⟨i, _, rfl⟩
    rfl
  · simp only [ThreadPool.drop, joinPhase_map_new]
    rw [joinPhase_of_thread_none]
    intro w hw
    rcases List.mem_map.mp hw with ⟨i, _, rfl⟩
    rfl

/-- C10 witness. -/
theorem thread_taken_and_joined_once_witness :
    (∀ w ∈ ({ workers := [Worker.new 0 0], rxHandle := 0 } :
              ThreadPool).workers, w.thread.isSome)
      ∧ (∀ w ∈ (ThreadPool.drop
            { workers := [Worker.new 0 0], rxHandle := 0 }).1.workers,
          w.thread = none)
      ∧ (joinPhase (ThreadPool.drop
            { workers := [Worker.new 0 0], rxHandle := 0 }).1.workers).2
          = [] :=
  thread_taken_and_joined_once 1
    { workers := [Worker.new 0 0], rxHandle := 0 } (by decide) (by rfl)

/-- C9 (counterexample).  With two workers, one pre-teardown job and two
queued `Terminate` messages, the system reaches a state where worker 1 has
consumed a `Terminate` (it is `stopped`) while the job — already dequeued
by worker 0 — has not yet been executed.  So the claim that every job
submitted before teardown is *executed* before any worker consumes a
`Terminate` is false; only the dequeue is so ordered. -/
theorem job_executed_before_terminate_counterexample :
    ¬ (∀ s, Reachable (teardownState [0] 2 2) s →
        (∃ w ∈ s.procs, w.state = .stopped) →
        ∀ j ∈ ([0] : List Job), j ∈ allExecuted s.procs) := by
  intro hclaim
  have h1 : Step (teardownState [0] 2 2)
      { queue := [Message.Terminate, Message.Terminate],
        procs := [{ wid := 0, state := .running, pending := some 0,
                    executed := [] },
                  { wid := 1, state := .running, pending := none,
                    executed := [] }] } :=
    Step.dequeueJob (teardownState [0] 2 2) 0
      { wid := 0, state := .running, pending := none, executed := [] }
      0 [Message.Terminate, Message.Terminate] rfl rfl rfl rfl
  have h2 : Step
      { queue := [Message.Terminate, Message.Terminate],
        procs := [{ wid := 0, state := .running, pending := some 0,
                    executed := [] },
                  { wid := 1, state := .running, pending := none,
                    executed := [] }] }
      { queue := [Message.Terminate],
        procs := [{ wid := 0, state := .running, pending := some 0,
                    executed := [] },
                  { wid := 1, state := .stopped, pending := none,
                    executed := [] }] } :=
    Step.dequeueTerminate _ 1
      { wid := 1, state := .running, pending := none, executed := [] }
      [Message.Terminate] rfl rfl rfl rfl
  have hreach := Relation.ReflTransGen.head h1
    (Relation.ReflTransGen.single h2)
  have hmem := hclaim _ hreach
    ⟨{ wid := 1, state := .stopped, pending := none, executed := [] },
      by simp, rfl⟩ 0 (by simp)
  simp [allExecuted] at hmem

/-- C9 (amended).  In any reachable state of teardown (the queue starts
FIFO with all pre-teardown jobs before the `Terminate` messages `Drop`
appended), once any worker has consumed a `Terminate`, every job submitted
before teardown has already been dequeued by some worker — it is pending
or executed at a worker, never abandoned in the queue; its execution may
merely still be in flight. -/
theorem jobs_dequeued_before_terminate_consumed
    (jobs : List Job) (nw k : Nat) (s : SysState)
    (hreach : Reachable (teardownState jobs nw k) s)
    (hstopped : ∃ w ∈ s.procs, w.state = .stopped) :
    ∀ j ∈ jobs, j ∈ allHeld s.procs := by
  have hinv : teardownInv jobs k s :=
    reachable_teardownInv jobs k hreach (teardownInv_init jobs nw k)
  have hq : queueJobs s.queue = [] := by
    apply queueJobs_of_all_terminate
    intro m hm
    exact List.eq_of_mem_replicate ((hinv.2 hstopped).subset hm)
  intro j hj
  have hcount : jobCount j s = jobCount j (teardownState jobs nw k) :=
    reachable_jobCount j hreach
  have hinitcount : jobCount j (teardownState jobs nw k) = jobs.count j := by
    simp only [jobCount, teardownState, queueJobs_append,
               queueJobs_map_newJob, queueJobs_replicate_terminate,
               List.append_nil, allHeld_of_initProcs, List.count_nil,
               Nat.add_zero]
  have hpos : 0 < jobs.count j := List.count_pos_iff.mpr hj
  rw [hinitcount] at hcount
  simp only [jobCount, hq, List.count_nil, Nat.zero_add] at hcount
  exact List.count_pos_iff.mp (by omega)

/-- C9 witness. -/
theorem jobs_dequeued_before_terminate_consumed_witness :
    (0 : Job) ∈ allHeld [{ wid := 0, state := .stopped, pending := none,
                           executed := [0] }] := by
  have h1 : Step (teardownState [0] 1 1)
      { queue := [Message.Terminate],
        procs := [{ wid := 0, state := .running, pending := some 0,
                    executed := [] }] } :=
    Step.dequeueJob (teardownState [0] 1 1) 0
      { wid := 0, state := .running, pending := none, executed := [] }
      0 [Message.Terminate] rfl rfl rfl rfl
  have h2 : Step
      { queue := [Message.Terminate],
        procs := [{ wid := 0, state := .running, pending := some 0,
                    executed := [] }] }
      { queue := [Message.Terminate],
        procs := [{ wid := 0, state := .running, pending := none,
                    executed := [0] }] } :=
    Step.execJob _ 0
      { wid := 0, state := .running, pending := some 0, executed := [] }
      0 rfl rfl
  have h3 : Step
      { queue := [Message.Terminate],
        procs := [{ wid := 0, state := .running, pending := none,
                    executed := [0] }] }
      { queue := [],
        procs := [{ wid := 0, state := .stopped, pending := none,
                    executed := [0] }] } :=
    Step.dequeueTerminate _ 0
      { wid := 0, state := .running, pending := none, executed := [0] }
      [] rfl rfl rfl rfl
  have hreach : Reachable (teardownState [0] 1 1)
      { queue := [],
        procs := [{ wid := 0, state := .stopped, pending := none,
                    executed := [0] }] } :=
    Relation.ReflTransGen.head h1
      (Relation.ReflTransGen.head h2 (Relation.ReflTransGen.single h3))
  exact jobs_dequeued_before_terminate_consumed [0] 1 1 _ hreach
    ⟨{ wid := 0, state := .stopped, pending := none, executed := [0] },
      by simp, rfl⟩ 0 (by simp)

end HelloWebserver
